import Mathlib

/-!
Verification of the paritydb core (sriharikapu/paritydb) against its
natural-language specification.  The Rust sources are shallowly embedded:
byte strings are `List Nat`, fallible code returns `Except`/`Option`,
machine integers are `Nat` (the embedded code paths never overflow their
Rust integer types, as noted at each definition).
-/

/-! ## Byte-string comparison

Rust compares `&[u8]` slices lexicographically (element-wise, a strict
prefix is less).  `Record::key_cmp`/`partial_cmp` on keys of equal length
reduce to this comparison. -/

/-- Lexicographic comparison of byte strings, mirroring `Ord` on `&[u8]`. -/
def cmpBytes : List Nat → List Nat → Ordering
  | [], [] => .eq
  | [], _ :: _ => .lt
  | _ :: _, [] => .gt
  | a :: as', b :: bs' =>
    if a < b then .lt
    else if b < a then .gt
    else cmpBytes as' bs'

/-- Strict key order induced by `cmpBytes`. -/
def keyLt (a b : List Nat) : Prop := cmpBytes a b = .lt

instance (a b : List Nat) : Decidable (keyLt a b) := by
  unfold keyLt; infer_instance

theorem cmpBytes_self (a : List Nat) : cmpBytes a a = .eq := by
  induction a with
  | nil => rfl
  | cons x xs ih => simp [cmpBytes, ih]

theorem cmpBytes_eq_iff {a b : List Nat} : cmpBytes a b = .eq ↔ a = b := by
  constructor
  · intro h
    induction a generalizing b with
    | nil => cases b with
      | nil => rfl
      | cons y ys => simp [cmpBytes] at h
    | cons x xs ih =>
      cases b with
      | nil => simp [cmpBytes] at h
      | cons y ys =>
        simp only [cmpBytes] at h
        by_cases hxy : x < y
        · simp [hxy] at h
        · by_cases hyx : y < x
          · simp [hxy, hyx] at h
          · have hx : x = y := Nat.le_antisymm (Nat.le_of_not_lt hyx) (Nat.le_of_not_lt hxy)
            simp only [hxy, hyx, if_false] at h
            rw [hx, ih h]
  · intro h; rw [h]; exact cmpBytes_self b

theorem cmpBytes_gt_iff_lt {a b : List Nat} :
    cmpBytes a b = .gt ↔ cmpBytes b a = .lt := by
  induction a generalizing b with
  | nil => cases b <;> simp [cmpBytes]
  | cons x xs ih =>
    cases b with
    | nil => simp [cmpBytes]
    | cons y ys =>
      simp only [cmpBytes]
      by_cases hxy : x < y
      · have : ¬ y < x := Nat.lt_asymm hxy
        simp [hxy, this]
      · by_cases hyx : y < x
        · simp [hxy, hyx]
        · simp [hxy, hyx, ih]

theorem keyLt_trans {a b c : List Nat} (hab : keyLt a b) (hbc : keyLt b c) : keyLt a c := by
  unfold keyLt at *
  induction a generalizing b c with
  | nil =>
    cases c with
    | nil =>
      cases b with
      | nil => simp [cmpBytes] at hab
      | cons y ys => simp [cmpBytes] at hbc
    | cons z zs => rfl
  | cons x xs ih =>
    cases b with
    | nil => simp [cmpBytes] at hab
    | cons y ys =>
      cases c with
      | nil => simp [cmpBytes] at hbc
      | cons z zs =>
        simp only [cmpBytes] at hab hbc ⊢
        by_cases hxy : x < y
        · by_cases hyz : y < z
          · simp [Nat.lt_trans hxy hyz]
          · by_cases hzy : z < y
            · simp [hyz, hzy] at hbc
            · have hyz' : y = z := Nat.le_antisymm (Nat.le_of_not_lt hzy) (Nat.le_of_not_lt hyz)
              subst hyz'
              simp [hxy]
        · by_cases hyx : y < x
          · simp [hxy, hyx] at hab
          · have hxy' : x = y := Nat.le_antisymm (Nat.le_of_not_lt hyx) (Nat.le_of_not_lt hxy)
            subst hxy'
            simp only [hxy, if_false, ite_self] at hab
            by_cases hyz : x < z
            · simp [hyz]
            · by_cases hzy : z < x
              · simp [hyz, hzy] at hbc
              · have : x = z := Nat.le_antisymm (Nat.le_of_not_lt hzy) (Nat.le_of_not_lt hyz)
                subst this
                simp only [Nat.lt_irrefl, if_false] at hbc ⊢
                exact ih hab hbc

theorem keyLt_of_gt {a b : List Nat} (h : cmpBytes a b = .gt) : keyLt b a :=
  cmpBytes_gt_iff_lt.mp h

/-! ## Collision sidecar (claim C7)

From `src/paritydb/src/collision.rs`.  A collision file is an append-only
sequence of `(key_len, key, value_len, value)` entries; we model the file
by its sequence of entries.  `Collision::put` seeks to the end and appends
one entry.  `Collision::get` (via `get_aux`) scans from the start of the
file and returns the value of the first entry whose key matches, skipping
over non-matching entries; reaching end of file yields `None`. -/

/-- `Collision::put`: append one `(key, value)` entry at the end of the file. -/
def collisionPut (entries : List (List Nat × List Nat)) (key value : List Nat) :
    List (List Nat × List Nat) :=
  entries ++ [(key, value)]

/-- `Collision::get`: sequential scan from the start, returning the first
entry whose key equals `key`; `none` when the scan reaches end of file. -/
def collisionGet : List (List Nat × List Nat) → List Nat → Option (List Nat)
  | [], _ => none
  | (k, v) :: rest, key => if k = key then some v else collisionGet rest key

/-- The claim's reading of `Collision::get`: the value of the last
(most recently appended) entry for the key. -/
def collisionGetLastSpec (entries : List (List Nat × List Nat)) (key : List Nat) :
    Option (List Nat) :=
  (entries.reverse.find? (fun e => e.1 == key)).map (·.2)

/-- C7 counterexample: a collision file holding two entries for the key `[1]`,
appended in the order `([1], [2])` then `([1], [3])`.  `Collision::get`
returns `[2]`, the value of the FIRST entry, not the last appended `[3]`. -/
theorem C7_collision_get_returns_first_not_last :
    collisionGet [([1], [2]), ([1], [3])] [1] = some [2] ∧
    collisionGetLastSpec [([1], [2]), ([1], [3])] [1] = some [3] ∧
    collisionGet [([1], [2]), ([1], [3])] [1] ≠
      collisionGetLastSpec [([1], [2]), ([1], [3])] [1] := by
  refine ⟨rfl, rfl, ?_⟩; decide

/-- C7 amended: `Collision::get` returns the value of the first (earliest
appended) entry for the key — earlier appended writes shadow newer ones —
and `none` when no entry matches. -/
theorem C7_collision_get_first_match (entries : List (List Nat × List Nat))
    (key : List Nat) :
    collisionGet entries key = (entries.find? (fun e => e.1 == key)).map (·.2) := by
  induction entries with
  | nil => rfl
  | cons e rest ih =>
    obtain ⟨k, v⟩ := e
    by_cases h : k = key
    · subst h
      simp [collisionGet, List.find?]
    · simp only [collisionGet, if_neg h]
      rw [ih]
      have hkey : (k == key) = false := by
        simp [h]
      simp [List.find?, hkey]

/-! ## Options (claim C5)

From `src/src/options.rs`.  `ValuesLen::size` uses `record::HEADER_SIZE = 4`
and `field::HEADER_SIZE = 1`.  `InternalOptions::from_external` validates the
options and computes the derived sizes.  Note the Rust expression
`(2u64 << external.key_index_bits + 1) * record_offset as u64` parses as
`(2 << (key_index_bits + 1)) * record_offset` because `+` binds tighter than
`<<` in Rust.  All quantities stay far below `2^64` for validated options of
realistic size, so we model them as `Nat`. -/

/-- `options::ValuesLen`. -/
inductive ValuesLen where
  | constant (n : Nat)
  | variableAvg (average : Nat)
deriving DecidableEq

/-- `ValuesLen::size`: the constant size, or `record::HEADER_SIZE + average`. -/
def valuesLenSize : ValuesLen → Nat
  | .constant x => x
  | .variableAvg average => 4 + average

/-- `record::ValueSize`. -/
inductive ValueSize where
  | constant (n : Nat)
  | variableLen
deriving DecidableEq

/-- `ValuesLen::to_value_size`. -/
def toValueSize : ValuesLen → ValueSize
  | .constant n => .constant n
  | .variableAvg _ => .variableLen

/-- `options::Options` (the external options). -/
structure Options where
  journalEras : Nat
  extendThresholdPercent : Nat
  keyIndexBits : Nat
  keyLen : Nat
  valueLen : ValuesLen
deriving DecidableEq

/-- `options::InternalOptions`. -/
structure InternalOptions where
  ext : Options
  valueSize : ValueSize
  fieldBodySize : Nat
  initialDbSize : Nat
  recordOffset : Nat
deriving DecidableEq

/-- Validation/option errors (`ErrorKind::InvalidOptions` collapsed to the
offending option's name). -/
inductive OptErr where
  | extendThresholdPercent
  | keyIndexBits
deriving DecidableEq

/-- `InternalOptions::from_external`: the three validations in source order,
then the derived sizes, including
`initial_db_size = (2u64 << key_index_bits + 1) * record_offset` which by
Rust operator precedence is `(2 <<< (key_index_bits + 1)) * record_offset`. -/
def fromExternal (e : Options) : Except OptErr InternalOptions :=
  if e.extendThresholdPercent > 100 ∨ e.extendThresholdPercent = 0 then
    .error .extendThresholdPercent
  else if e.keyIndexBits > e.keyLen * 8 then
    .error .keyIndexBits
  else if e.keyIndexBits > 32 ∨ e.keyIndexBits = 0 then
    .error .keyIndexBits
  else
    let fieldBodySize := e.keyLen + valuesLenSize e.valueLen
    let recordOffset := fieldBodySize + 1
    .ok {
      ext := e
      valueSize := toValueSize e.valueLen
      fieldBodySize := fieldBodySize
      initialDbSize := (2 <<< (e.keyIndexBits + 1)) * recordOffset
      recordOffset := recordOffset
    }

/-- The default options: `journal_eras = 5`, `extend_threshold_percent = 80`,
`key_index_bits = 8`, `key_len = 32`, `value_len = Constant(64)`. -/
def defaultOptions : Options :=
  { journalEras := 5, extendThresholdPercent := 80, keyIndexBits := 8,
    keyLen := 32, valueLen := .constant 64 }

/-- C5 counterexample: with the default options (`key_index_bits = 8`,
`record_offset = 97`), the data file is created with
`initial_db_size = (2 <<< 9) * 97 = 99328` bytes, not the claimed
`(2 * 2^8) * 97 = 49664` bytes. -/
theorem C5_initial_db_size_counterexample :
    (fromExternal defaultOptions).map (fun io => io.initialDbSize) = .ok 99328 ∧
    (fromExternal defaultOptions).map (fun io => io.recordOffset) = .ok 97 ∧
    (99328 : Nat) ≠ (2 * 2 ^ 8) * 97 := by
  refine ⟨rfl, rfl, by decide⟩

/-- C5 amended: for every valid options value, `Database::create` sizes the
data file at `2^(key_index_bits + 2) * record_offset` bytes — twice the size
the claim states — where `record_offset = 1 + field_body_size` and
`field_body_size = key_len + value size`. -/
theorem C5_initial_db_size (e : Options) (io : InternalOptions)
    (h : fromExternal e = .ok io) :
    io.initialDbSize = 2 ^ (e.keyIndexBits + 2) * io.recordOffset ∧
    io.recordOffset = 1 + io.fieldBodySize ∧
    io.fieldBodySize = e.keyLen + valuesLenSize e.valueLen := by
  unfold fromExternal at h
  split at h
  · exact absurd h (by simp)
  · split at h
    · exact absurd h (by simp)
    · split at h
      · exact absurd h (by simp)
      · simp only [Except.ok.injEq] at h
        subst h
        refine ⟨?_, Nat.add_comm _ 1, rfl⟩
        simp only [Nat.shiftLeft_eq]
        ring

/-- C5 witness: the amended statement evaluated at the default options. -/
theorem C5_initial_db_size_witness :
    ∃ io, fromExternal defaultOptions = .ok io ∧
      io.initialDbSize = 2 ^ (defaultOptions.keyIndexBits + 2) * io.recordOffset := by
  refine ⟨{ ext := defaultOptions, valueSize := .constant 64, fieldBodySize := 96,
            initialDbSize := 99328, recordOffset := 97 }, rfl, ?_⟩
  exact (C5_initial_db_size defaultOptions _ rfl).1

/-! ## Metadata and the prefix-bit invariant (claim C6)

From `src/paritydb/src/metadata.rs`: `Metadata::insert_record` adds the
record length to `occupied_bytes` and inserts the record's prefix into the
prefix tree; `Metadata::remove_record` only subtracts from `occupied_bytes`
("We can't simply remove prefix from db, cause there might be more records
with the same prefix in the database"); `Metadata::update_record_len` adjusts
`occupied_bytes`; `Metadata::add_prefix_collision` sets the collided bit.
The prefix tree (`prefix_tree::PrefixTree` is not among the sources; its
`has`/`insert` bit-vector interface is modelled from the spec as a set of set
bits) records prefixes and is never cleared.

The flush writer (`src/src/flush/writer.rs`) drives exactly these metadata
calls: `InsertOperation` → `insert_record` (and a live record is written),
`OverwriteOperation` → `update_record_len` (live set unchanged),
`DeleteOperation` → `remove_record` (the record's fields are overwritten
with `Deleted`, removing it from the live set);
`Database::compact` additionally calls `add_prefix_collision`.
We track the multiset of live records' prefixes alongside the metadata. -/

/-- Prefix-tree insert, modelled from the spec as set insertion
(`Modelled from the spec:` `prefix_tree.rs` is not among the sources; the
spec describes a bit-vector with `has(p)`, `set(p)`). -/
def pfxInsert (p : Nat) (t : List Nat) : List Nat :=
  if p ∈ t then t else p :: t

theorem mem_pfxInsert {p q : Nat} {t : List Nat} :
    p ∈ pfxInsert q t ↔ p = q ∨ p ∈ t := by
  unfold pfxInsert
  split
  · constructor
    · exact Or.inr
    · rintro (rfl | h)
      · assumption
      · assumption
  · simp [List.mem_cons]

/-- `Metadata` state: occupied bytes, prefix tree, collided-prefix bitmap. -/
structure Meta where
  occupiedBytes : Nat
  pfxTree : List Nat
  collided : List Nat
deriving DecidableEq

/-- `Metadata::insert_record`. -/
def insertRecord (m : Meta) (p len : Nat) : Meta :=
  { m with occupiedBytes := m.occupiedBytes + len, pfxTree := pfxInsert p m.pfxTree }

/-- `Metadata::remove_record`: only `occupied_bytes` changes; the prefix tree
is untouched. -/
def removeRecord (m : Meta) (len : Nat) : Meta :=
  { m with occupiedBytes := m.occupiedBytes - len }

/-- `Metadata::update_record_len`. -/
def updateRecordLen (m : Meta) (oldLen newLen : Nat) : Meta :=
  { m with occupiedBytes := m.occupiedBytes - oldLen + newLen }

/-- `Metadata::add_prefix_collision`. -/
def addPfxCollision (m : Meta) (p : Nat) : Meta :=
  { m with collided := pfxInsert p m.collided }

/-- The metadata-relevant events of the flush/compact pipeline:
insert of a new record into bucket `p`, delete of a live record of bucket
`p`, overwrite of a live record, and marking `p` collided. -/
inductive FlushEvent where
  | ins (p len : Nat)
  | del (p len : Nat)
  | ovw (p oldLen newLen : Nat)
  | addCol (p : Nat)
deriving DecidableEq

/-- Database state abstraction: the metadata plus the multiset of prefixes
of live records in the data file. -/
structure MetaState where
  meta : Meta
  live : List Nat
deriving DecidableEq

/-- One flush/compact event applied to metadata and the live multiset,
following `src/src/flush/writer.rs` (`InsertOperation`,
`DeleteOperation`, `OverwriteOperation` states) and `Database::compact`. -/
def stepFlush (s : MetaState) : FlushEvent → MetaState
  | .ins p len => { meta := insertRecord s.meta p len, live := p :: s.live }
  | .del p len => { meta := removeRecord s.meta len, live := s.live.erase p }
  | .ovw _ o n => { meta := updateRecordLen s.meta o n, live := s.live }
  | .addCol p => { meta := addPfxCollision s.meta p, live := s.live }

/-- Replay of a sequence of flush/compact events. -/
def runFlush (s : MetaState) (evs : List FlushEvent) : MetaState :=
  evs.foldl stepFlush s

/-- The freshly created database: zeroed metadata, no live records. -/
def initialMetaState : MetaState :=
  { meta := { occupiedBytes := 0, pfxTree := [], collided := [] }, live := [] }

/-- The claim's invariant (I3) at state `s` and prefix `p`:
`prefixes[p] = 1` iff bucket `p` has a live record or `collided[p] = 1`. -/
def C6ClaimAt (s : MetaState) (p : Nat) : Prop :=
  p ∈ s.meta.pfxTree ↔ (0 < s.live.count p ∨ p ∈ s.meta.collided)

instance (s : MetaState) (p : Nat) : Decidable (C6ClaimAt s p) := by
  unfold C6ClaimAt; infer_instance

/-- C6 counterexample: insert one record into bucket 5 and then delete it
(the reachable state after flushing `{insert k v}` then `{delete k}` for a
key of prefix 5).  The prefix bit stays set although the bucket holds no
live record and is not collided, falsifying invariant (I3). -/
theorem C6_prefix_bit_counterexample :
    ¬ C6ClaimAt (runFlush initialMetaState [.ins 5 10, .del 5 10]) 5 := by
  decide

/-- C6 amended: in every reachable state, `prefixes[p] = 1` iff at least one
record has EVER been inserted into bucket `p` (the bit is never cleared:
`remove_record` does not touch the prefix tree, so deleting the last live
record of a prefix leaves `prefixes[p] = 1`). -/
theorem C6_prefix_bit_ever_inserted (evs : List FlushEvent) (p : Nat) :
    p ∈ (runFlush initialMetaState evs).meta.pfxTree ↔
      ∃ len, FlushEvent.ins p len ∈ evs := by
  suffices general : ∀ (s : MetaState) (evs : List FlushEvent) (p : Nat),
      p ∈ (runFlush s evs).meta.pfxTree ↔
        (p ∈ s.meta.pfxTree ∨ ∃ len, FlushEvent.ins p len ∈ evs) by
    rw [general]
    simp [initialMetaState]
  intro s evs
  induction evs generalizing s with
  | nil => intro p; simp [runFlush]
  | cons e rest ih =>
    intro p
    have hstep : runFlush s (e :: rest) = runFlush (stepFlush s e) rest := rfl
    rw [hstep, ih]
    cases e with
    | ins q len =>
      simp only [stepFlush, insertRecord, mem_pfxInsert, List.mem_cons,
        FlushEvent.ins.injEq]
      constructor
      · rintro ((rfl | h) | ⟨l, hl⟩)
        · exact Or.inr ⟨len, Or.inl ⟨rfl, rfl⟩⟩
        · exact Or.inl h
        · exact Or.inr ⟨l, Or.inr hl⟩
      · rintro (h | ⟨l, (⟨rfl, rfl⟩ | hl)⟩)
        · exact Or.inl (Or.inr h)
        · exact Or.inl (Or.inl rfl)
        · exact Or.inr ⟨l, hl⟩
    | del q len =>
      simp [stepFlush, removeRecord]
    | ovw q o n =>
      simp [stepFlush, updateRecordLen]
    | addCol q =>
      simp [stepFlush, addPfxCollision]

/-! ## Flush file application (claim C3)

From `src/src/flush/flush.rs`.  The body of a flush file is a sequence of
`(offset: u64 LE, len: u32 LE, bytes[len])` entries; `Flush::flush`
iterates them (`IdempotentOperationIterator`) and performs, for each entry,
`db[o.offset .. o.offset + o.data.len()].copy_from_slice(o.data)` — a plain
memcpy.  We model the decoded body as a list of `(offset, bytes)` pairs.
The serialized metadata at the tail of the flush file is copied verbatim
into the metadata file on replay (`Modelled from the spec:` the
metadata-copying step of flush replay is described in §4.5 "the metadata at
the tail is copied into the metadata file"; only the data-file overwrite
loop is among the sources). -/

/-- One memcpy `db[off .. off + bytes.length] := bytes`. -/
def writeAt (db : List Nat) (off : Nat) (bytes : List Nat) : List Nat :=
  db.take off ++ bytes ++ db.drop (off + bytes.length)

/-- `Flush::flush`: apply every overwrite entry, in file order. -/
def applyOverwrites (ops : List (Nat × List Nat)) (db : List Nat) : List Nat :=
  ops.foldl (fun acc o => writeAt acc o.1 o.2) db

/-- Copying the metadata blob from the flush-file tail over the metadata
file: the metadata file's new contents are exactly the blob. -/
def applyMetaCopy (metaBlob : List Nat) (_metaFile : List Nat) : List Nat :=
  metaBlob

/-- A flush-file body is well formed for a data file of length `n` when
every overwrite entry fits inside the file. -/
def opsInBounds (ops : List (Nat × List Nat)) (n : Nat) : Prop :=
  ∀ o ∈ ops, o.1 + o.2.length ≤ n

instance (ops : List (Nat × List Nat)) (n : Nat) : Decidable (opsInBounds ops n) := by
  unfold opsInBounds; infer_instance

/-- Byte position `i` is touched by some overwrite entry. -/
def coveredBy (ops : List (Nat × List Nat)) (i : Nat) : Prop :=
  ∃ o ∈ ops, o.1 ≤ i ∧ i < o.1 + o.2.length

theorem length_writeAt {db bytes : List Nat} {off : Nat}
    (h : off + bytes.length ≤ db.length) :
    (writeAt db off bytes).length = db.length := by
  simp only [writeAt, List.length_append, List.length_take, List.length_drop]
  omega

theorem getElem?_writeAt_lo {db bytes : List Nat} {off i : Nat}
    (hi : i < off) (hb : off + bytes.length ≤ db.length) :
    (writeAt db off bytes)[i]? = db[i]? := by
  unfold writeAt
  rw [List.append_assoc, List.getElem?_append_left (by
    simp only [List.length_take]
    omega)]
  exact List.getElem?_take_of_lt hi

theorem getElem?_writeAt_mid {db bytes : List Nat} {off i : Nat}
    (h1 : off ≤ i) (h2 : i < off + bytes.length) (hb : off + bytes.length ≤ db.length) :
    (writeAt db off bytes)[i]? = bytes[i - off]? := by
  unfold writeAt
  have htake : (db.take off).length = off := by
    simp only [List.length_take]
    omega
  rw [List.append_assoc, List.getElem?_append_right (by omega), htake,
    List.getElem?_append_left (by omega)]

theorem getElem?_writeAt_hi {db bytes : List Nat} {off i : Nat}
    (h1 : off + bytes.length ≤ i) (hb : off + bytes.length ≤ db.length) :
    (writeAt db off bytes)[i]? = db[i]? := by
  unfold writeAt
  have htake : (db.take off).length = off := by
    simp only [List.length_take]
    omega
  rw [List.append_assoc]
  rw [List.getElem?_append_right (by rw [htake]; omega)]
  rw [htake]
  rw [List.getElem?_append_right (by omega)]
  rw [List.getElem?_drop]
  congr 1
  omega

theorem length_applyOverwrites {ops : List (Nat × List Nat)} {db : List Nat}
    (h : opsInBounds ops db.length) :
    (applyOverwrites ops db).length = db.length := by
  induction ops generalizing db with
  | nil => rfl
  | cons o rest ih =>
    have hob : o.1 + o.2.length ≤ db.length := h o (List.mem_cons_self _ _)
    have hlen : (writeAt db o.1 o.2).length = db.length := length_writeAt hob
    have : applyOverwrites (o :: rest) db = applyOverwrites rest (writeAt db o.1 o.2) := rfl
    rw [this, ih]
    · exact hlen
    · intro o' ho'
      rw [hlen]
      exact h o' (List.mem_cons_of_mem _ ho')

/-- Bytes not covered by any overwrite entry are untouched. -/
theorem getElem?_applyOverwrites_frame {ops : List (Nat × List Nat)} {db : List Nat} {i : Nat}
    (hb : opsInBounds ops db.length) (hi : ¬ coveredBy ops i) :
    (applyOverwrites ops db)[i]? = db[i]? := by
  induction ops generalizing db with
  | nil => rfl
  | cons o rest ih =>
    have hob : o.1 + o.2.length ≤ db.length := hb o (List.mem_cons_self _ _)
    have hlen : (writeAt db o.1 o.2).length = db.length := length_writeAt hob
    have hstep : applyOverwrites (o :: rest) db = applyOverwrites rest (writeAt db o.1 o.2) := rfl
    have hio : i < o.1 ∨ o.1 + o.2.length ≤ i := by
      by_contra hcon
      exact hi ⟨o, List.mem_cons_self _ _, by omega, by omega⟩
    have hrest : ¬ coveredBy rest i := by
      intro ⟨o', ho', h1, h2⟩
      exact hi ⟨o', List.mem_cons_of_mem _ ho', h1, h2⟩
    rw [hstep, ih (by
      intro o' ho'
      rw [hlen]
      exact hb o' (List.mem_cons_of_mem _ ho')) hrest]
    rcases hio with hio | hio
    · exact getElem?_writeAt_lo hio hob
    · exact getElem?_writeAt_hi hio hob

/-- Two data files of equal length agreeing outside the covered region are
mapped to the same result by the overwrite list. -/
theorem applyOverwrites_congr {ops : List (Nat × List Nat)} {db db' : List Nat}
    (hb : opsInBounds ops db.length)
    (hlen : db.length = db'.length)
    (hagree : ∀ i, ¬ coveredBy ops i → db[i]? = db'[i]?) :
    applyOverwrites ops db = applyOverwrites ops db' := by
  induction ops generalizing db db' with
  | nil =>
    apply List.ext_getElem?
    intro i
    exact hagree i (by
      intro ⟨o, ho, _⟩
      exact absurd ho (List.not_mem_nil o))
  | cons o rest ih =>
    have hob : o.1 + o.2.length ≤ db.length := hb o (List.mem_cons_self _ _)
    have hob' : o.1 + o.2.length ≤ db'.length := hlen ▸ hob
    have hstep : ∀ d, applyOverwrites (o :: rest) d = applyOverwrites rest (writeAt d o.1 o.2) :=
      fun _ => rfl
    rw [hstep, hstep]
    apply ih
    · intro o' ho'
      rw [length_writeAt hob]
      exact hb o' (List.mem_cons_of_mem _ ho')
    · rw [length_writeAt hob, length_writeAt hob']
      exact hlen
    · intro i hrest
      by_cases hin : o.1 ≤ i ∧ i < o.1 + o.2.length
      · rw [getElem?_writeAt_mid hin.1 hin.2 hob, getElem?_writeAt_mid hin.1 hin.2 hob']
      · have hout : i < o.1 ∨ o.1 + o.2.length ≤ i := by omega
        have hnc : ¬ coveredBy (o :: rest) i := by
          intro ⟨o', ho', h1, h2⟩
          rcases List.mem_cons.mp ho' with rfl | ho''
          · omega
          · exact hrest ⟨o', ho'', h1, h2⟩
        rcases hout with hio | hio
        · rw [getElem?_writeAt_lo hio hob, getElem?_writeAt_lo hio hob']
          exact hagree i hnc
        · rw [getElem?_writeAt_hi hio hob, getElem?_writeAt_hi hio hob']
          exact hagree i hnc

/-- C3: applying the same flush file twice yields exactly the same data
bytes and metadata bytes as applying it once, for every well-formed body
(each overwrite entry within the data file's bounds) — every entry is a
plain memcpy of fixed bytes at a fixed offset. -/
theorem C3_flush_idempotent (ops : List (Nat × List Nat)) (metaBlob db metaFile : List Nat)
    (hb : opsInBounds ops db.length) :
    applyOverwrites ops (applyOverwrites ops db) = applyOverwrites ops db ∧
    applyMetaCopy metaBlob (applyMetaCopy metaBlob metaFile) = applyMetaCopy metaBlob metaFile := by
  refine ⟨?_, rfl⟩
  apply applyOverwrites_congr
  · intro o ho
    rw [length_applyOverwrites hb]
    exact hb o ho
  · exact length_applyOverwrites hb
  · intro i hnc
    exact getElem?_applyOverwrites_frame hb hnc

/-- C3 witness: two overlapping overwrites on a concrete 4-byte file. -/
theorem C3_flush_idempotent_witness :
    opsInBounds [(0, [9, 9]), (1, [7])] ([1, 2, 3, 4] : List Nat).length ∧
    applyOverwrites [(0, [9, 9]), (1, [7])]
        (applyOverwrites [(0, [9, 9]), (1, [7])] [1, 2, 3, 4]) =
      applyOverwrites [(0, [9, 9]), (1, [7])] [1, 2, 3, 4] :=
  ⟨by decide, (C3_flush_idempotent [(0, [9, 9]), (1, [7])] [5] [1, 2, 3, 4] []
      (by decide)).1⟩

/-! ## Transaction operations and their serialization (claims C8, C10, C4, C1)

From `src/paritydb/src/transaction.rs`.  An operation is serialized as
`tag (1 byte) ‖ key_len (u32 LE) ‖ [value_len (u32 LE) if Insert] ‖ key ‖
[value if Insert]` with tags `INSERT = 0`, `DELETE = 1`.
`Transaction::insert`/`Transaction::delete` validate the key length against
the transaction's configured `key_len` and append the serialized operation
to the buffer.  `OperationsIterator` parses the buffer back; an
out-of-bounds slice or an unsupported tag aborts the Rust process, which we
model as `none`. -/

/-- A database operation (`transaction::Operation`). -/
inductive TxOp where
  | insert (key value : List Nat)
  | delete (key : List Nat)
deriving DecidableEq

/-- Key of an operation (`Operation::key`). -/
def txOpKey : TxOp → List Nat
  | .insert k _ => k
  | .delete k => k

/-- Little-endian u32 encoding (`byteorder::LittleEndian::write_u32`),
truncating to 32 bits exactly as the `as u32` cast does. -/
def u32le (n : Nat) : List Nat :=
  [n % 256, n / 256 % 256, n / 65536 % 256, n / 16777216 % 256]

/-- Little-endian u32 decoding (`byteorder::LittleEndian::read_u32`). -/
def readU32 (a b c d : Nat) : Nat :=
  a + 256 * b + 65536 * c + 16777216 * d

theorem readU32_u32le {n : Nat} (h : n < 4294967296) :
    readU32 (n % 256) (n / 256 % 256) (n / 65536 % 256) (n / 16777216 % 256) = n := by
  unfold readU32
  omega

/-- `Operation::write_to_buf`. -/
def writeOpToBuf : TxOp → List Nat
  | .insert k v => 0 :: (u32le k.length ++ u32le v.length ++ k ++ v)
  | .delete k => 1 :: (u32le k.length ++ k)

/-- Serialized form of a whole transaction (`Transaction::raw`): the
concatenation of its operations' serializations, in insertion order. -/
def serializeOps (ops : List TxOp) : List Nat :=
  (ops.map writeOpToBuf).flatten

/-- Database and journal errors (`error::ErrorKind`). -/
inductive DbErr where
  | invalidKeyLen (expected got : Nat)
  | fieldInvalidLength
  | fieldInvalidHeader
deriving DecidableEq

/-- A staged transaction: configured key length plus the raw operation
buffer (`transaction::Transaction`). -/
structure Tx where
  keyLen : Nat
  operations : List Nat
deriving DecidableEq

/-- `Transaction::insert`: validate the key length only — the value length
is never checked — then append the serialized insert operation. -/
def txInsert (t : Tx) (key value : List Nat) : Except DbErr Tx :=
  if key.length ≠ t.keyLen then
    .error (.invalidKeyLen t.keyLen key.length)
  else
    .ok { t with operations := t.operations ++ writeOpToBuf (.insert key value) }

/-- `Transaction::delete`: validate the key length, then append the
serialized delete operation. -/
def txDelete (t : Tx) (key : List Nat) : Except DbErr Tx :=
  if key.length ≠ t.keyLen then
    .error (.invalidKeyLen t.keyLen key.length)
  else
    .ok { t with operations := t.operations ++ writeOpToBuf (.delete key) }

/-- `OperationsIterator`: parse a serialized operation buffer back into the
operation list.  `none` models the process abort on an unsupported tag or
an out-of-bounds slice index. -/
def parseOps : List Nat → Option (List TxOp)
  | [] => some []
  | 0 :: a :: b :: c :: d :: e :: f :: g :: h :: rest =>
    let kl := readU32 a b c d
    let vl := readU32 e f g h
    if kl + vl ≤ rest.length then
      match parseOps (rest.drop (kl + vl)) with
      | some ops => some (.insert (rest.take kl) ((rest.drop kl).take vl) :: ops)
      | none => none
    else none
  | 1 :: a :: b :: c :: d :: rest =>
    let kl := readU32 a b c d
    if kl ≤ rest.length then
      match parseOps (rest.drop kl) with
      | some ops => some (.delete (rest.take kl) :: ops)
      | none => none
    else none
  | _ => none
termination_by l => l.length
decreasing_by
  · simp only [List.length_cons, List.length_drop]
    omega
  · simp only [List.length_cons, List.length_drop]
    omega

/-- Round trip: parsing the serialization of an operation list recovers it,
provided every key and value is shorter than `2^32` (so that the `as u32`
length casts are lossless). -/
theorem parseOps_serializeOps (ops : List TxOp)
    (h : ∀ op ∈ ops, (txOpKey op).length < 4294967296 ∧
      (∀ k v, op = TxOp.insert k v → v.length < 4294967296)) :
    parseOps (serializeOps ops) = some ops := by
  induction ops with
  | nil => simp [serializeOps, parseOps]
  | cons op rest ih =>
    have hop := h op (List.mem_cons_self _ _)
    have hrest : parseOps (serializeOps rest) = some rest :=
      ih (fun o ho => h o (List.mem_cons_of_mem _ ho))
    cases op with
    | insert k v =>
      have hk : k.length < 4294967296 := hop.1
      have hv : v.length < 4294967296 := hop.2 k v rfl
      have hser : serializeOps (TxOp.insert k v :: rest) =
          0 :: (k.length % 256 :: k.length / 256 % 256 :: k.length / 65536 % 256 ::
            k.length / 16777216 % 256 :: v.length % 256 :: v.length / 256 % 256 ::
            v.length / 65536 % 256 :: v.length / 16777216 % 256 ::
            (k ++ v ++ serializeOps rest)) := by
        simp [serializeOps, writeOpToBuf, u32le]
      rw [hser]
      simp only [parseOps, readU32_u32le hk, readU32_u32le hv]
      have hlen : k.length + v.length ≤ (k ++ v ++ serializeOps rest).length := by
        simp [List.length_append]
      rw [if_pos hlen]
      have hdrop : (k ++ v ++ serializeOps rest).drop (k.length + v.length) =
          serializeOps rest := by
        rw [List.append_assoc, List.drop_append_eq_append_drop]
        simp
      have htake : (k ++ v ++ serializeOps rest).take k.length = k := by
        rw [List.append_assoc, List.take_append_eq_append_take]
        simp
      have hdk : (k ++ v ++ serializeOps rest).drop k.length = v ++ serializeOps rest := by
        rw [List.append_assoc, List.drop_append_eq_append_drop]
        simp
      have htv : (v ++ serializeOps rest).take v.length = v := by
        rw [List.take_append_eq_append_take]
        simp
      rw [hdrop, hrest, htake, hdk, htv]
    | delete k =>
      have hk : k.length < 4294967296 := hop.1
      have hser : serializeOps (TxOp.delete k :: rest) =
          1 :: (k.length % 256 :: k.length / 256 % 256 :: k.length / 65536 % 256 ::
            k.length / 16777216 % 256 :: (k ++ serializeOps rest)) := by
        simp [serializeOps, writeOpToBuf, u32le]
      rw [hser]
      simp only [parseOps, readU32_u32le hk]
      have hlen : k.length ≤ (k ++ serializeOps rest).length := by
        simp [List.length_append]
      rw [if_pos hlen]
      have hdrop : (k ++ serializeOps rest).drop k.length = serializeOps rest := by
        rw [List.drop_append_eq_append_drop]
        simp
      have htake : (k ++ serializeOps rest).take k.length = k := by
        rw [List.take_append_eq_append_take]
        simp
      rw [hdrop, hrest, htake]

/-! ## Journal (claims C4, C1, C10)

From `src/src/journal.rs`.  Each era file holds a 32-byte checksum prefix
followed by the serialized transaction; `cache_memory` parses the payload
and collects the operations into a `HashMap` keyed by the operation key, so
a later operation on the same key overwrites an earlier one.
`JournalEra::get` looks the key up in that map.  `Journal::get` walks the
eras from newest to oldest (`self.eras.iter().rev()`) and, at the first era
whose map contains the key, returns `Some(value)` for an `Insert` — and
`None` for a `Delete`, which is indistinguishable from a complete miss. -/

/-- `journal::JournalOperation`. -/
inductive JOp where
  | insert (value : List Nat)
  | delete
deriving DecidableEq

/-- An era's in-memory cache, in insertion order (the `HashMap` semantics
live in `eraGet`, which takes the last binding for a key). -/
def EraCache := List (List Nat × JOp)

instance : DecidableEq EraCache := by
  unfold EraCache; infer_instance

/-- `cache_memory`'s per-operation mapping. -/
def cacheOps (ops : List TxOp) : EraCache :=
  ops.map fun op =>
    match op with
    | .insert k v => (k, JOp.insert v)
    | .delete k => (k, JOp.delete)

/-- `cache_memory`: parse the era payload and build the key map. -/
def cacheFromBytes (payload : List Nat) : EraCache :=
  match parseOps payload with
  | some ops => cacheOps ops
  | none => []

/-- `JournalEra::get`: `HashMap` lookup — the last binding for the key wins
(later inserts into a `HashMap` overwrite earlier ones). -/
def eraGet (cache : EraCache) (key : List Nat) : Option JOp :=
  (cache.reverse.find? (fun e => e.1 == key)).map (·.2)

/-- `Journal::get`: walk the era queue newest first; on the first hit,
`Insert` yields the value and `Delete` yields `None` — the same `None` a
complete miss yields.  `eras` lists eras oldest first, as in the
`VecDeque`. -/
def journalGetFrom : List EraCache → List Nat → Option (List Nat)
  | [], _ => none
  | era :: older, key =>
    match eraGet era key with
    | some (.insert v) => some v
    | some .delete => none
    | none => journalGetFrom older key

/-- `Journal::get` on the oldest-first era queue. -/
def journalGet (eras : List EraCache) (key : List Nat) : Option (List Nat) :=
  journalGetFrom eras.reverse key

/-- `Journal::push`: serialize the transaction, write checksum ‖ payload,
cache the payload, and enqueue the new era at the back. -/
def journalPush (eras : List EraCache) (t : Tx) : List EraCache :=
  eras ++ [cacheFromBytes t.operations]

/-! ## Era file discovery and era opening (claim C4)

From `src/src/journal.rs`.  `dir::era_files` collects EVERY directory entry
— there is no filter for the `N.era` pattern — into a `Vec<PathBuf>` and
calls `sort()`, which orders `PathBuf`s lexicographically by their byte
representation (so `"10.era"` sorts before `"2.era"`).
`JournalEra::open` memory-maps the file and builds the cache from
`mmap[CHECKSUM_SIZE..]` without ever comparing the 32-byte checksum prefix
against the body (the source line reads `// TODO: validate checksum here`),
so no input can produce `CorruptedJournal`.  File names are modelled as
their byte strings. -/

/-- Insertion step of the lexicographic sort of file names. -/
def insertByLex (x : List Nat) : List (List Nat) → List (List Nat)
  | [] => [x]
  | y :: rest =>
    if cmpBytes x y = .gt then y :: insertByLex x rest else x :: y :: rest

/-- Lexicographic sort of file names, mirroring `Vec::<PathBuf>::sort`. -/
def sortByLex : List (List Nat) → List (List Nat)
  | [] => []
  | x :: rest => insertByLex x (sortByLex rest)

/-- `dir::era_files`: take every entry of the directory and sort the paths
lexicographically.  No pattern filter is applied. -/
def eraFiles (names : List (List Nat)) : List (List Nat) :=
  sortByLex names

/-- Journal opening errors as the claim names them. -/
inductive JournalErr where
  | corruptedJournal
deriving DecidableEq

/-- `JournalEra::open`: map the file and cache `bytes[32..]`; the checksum
prefix is never verified. -/
def journalEraOpen (fileBytes : List Nat) : Except JournalErr EraCache :=
  .ok (cacheFromBytes (fileBytes.drop 32))

/-- C4, evaluated at the failing inputs.  `[49,48,46,101,114,97]` is the
byte string `"10.era"`, `[50,46,101,114,97]` is `"2.era"` and
`[76,79,67,75]` is `"LOCK"`.  (1) `era_files` orders `"10.era"` before
`"2.era"` — lexicographic, not by the integer `N`, so era 10 is replayed
before era 2; (2) a file not matching `N.era` is not filtered out;
(3) `JournalEra::open` succeeds on every input, so a checksum mismatch is
never reported as `CorruptedJournal`. -/
theorem C4_journal_open_divergence :
    eraFiles [[50, 46, 101, 114, 97], [49, 48, 46, 101, 114, 97]] =
      [[49, 48, 46, 101, 114, 97], [50, 46, 101, 114, 97]] ∧
    [76, 79, 67, 75] ∈ eraFiles [[76, 79, 67, 75], [49, 48, 46, 101, 114, 97]] ∧
    ∀ fileBytes e, journalEraOpen fileBytes ≠ .error e := by
  refine ⟨by decide, by decide, ?_⟩
  intro fileBytes e h
  simp [journalEraOpen] at h

/-! ## Field scan, record extraction and `find_record` (claims C9, C1, C8)

From `src/paritydb/src/find.rs` and the fields-view projection
(`field::view::FieldsView`, `record::Record`).  A data slice is a run of
fields of `1 + field_body_size` bytes each; the first byte of a field is
its header: `0 = Uninitialized`, `1 = Inserted`, `2 = Continued`, any other
byte is an invalid header (`field::ErrorKind::InvalidHeader`).
`FieldHeaderIterator::new` rejects slices whose length is not a multiple of
the field size (`InvalidLength`).  A `FieldsView` projects the body bytes
of consecutive fields, skipping the header byte of every field;
`Record::extract_key` is the first `key_len` body bytes of the slice, and a
record's value for `ValueSize::Constant(n)` is the next `n` body bytes (for
`ValueSize::Variable` a 4-byte LE length header precedes the value). -/

/-- Body bytes of a run of fields: drop each field's leading header byte
and concatenate the bodies (`FieldsView` projection). -/
def bodyBytes (bodySize : Nat) (data : List Nat) : List Nat :=
  if data = [] then []
  else (data.drop 1).take bodySize ++ bodyBytes bodySize (data.drop (bodySize + 1))
termination_by data.length
decreasing_by
  rename_i hne
  simp only [List.length_drop]
  cases data with
  | nil => exact absurd rfl hne
  | cons x xs => simp only [List.length_cons]; omega

/-- `Record::extract_key`: the first `key_len` body bytes. -/
def extractKey (bodySize keyLen : Nat) (data : List Nat) : List Nat :=
  (bodyBytes bodySize data).take keyLen

/-- The record's value bytes at the head of `data`
(`Record::new` + `read_value`): for a constant value size the `n` body
bytes after the key, for variable sizes the length is read from a 4-byte
LE header after the key. -/
def recordValue (bodySize keyLen : Nat) (vs : ValueSize) (data : List Nat) : List Nat :=
  let body := bodyBytes bodySize data
  match vs with
  | .constant n => (body.drop keyLen).take n
  | .variableLen =>
    match body.drop keyLen with
    | a :: b :: c :: d :: _ => ((body.drop (keyLen + 4)).take (readU32 a b c d))
    | _ => []

/-- `find::RecordResult`; `found` carries the record's key and value bytes. -/
inductive FindRes where
  | found (recKey recVal : List Nat)
  | notFound
  | outOfRange
deriving DecidableEq

/-- Main loop of `find_record`: walk the fields of `data`.
`Uninitialized` ends the scan with `NotFound`; an `Inserted` field's key is
compared with the searched key (`Less` → keep scanning, `Equal` → `Found`,
`Greater` → `NotFound`); `Continued` fields are skipped; any other header
byte is an `InvalidHeader` error; running past the end of the slice yields
`OutOfRange`. -/
def findRecordGo (bodySize keyLen : Nat) (vs : ValueSize) (key : List Nat) :
    List Nat → Except DbErr FindRes
  | [] => .ok .outOfRange
  | h :: rest =>
    if h = 0 then .ok .notFound
    else if h = 1 then
      match cmpBytes (extractKey bodySize keyLen (h :: rest)) key with
      | .lt => findRecordGo bodySize keyLen vs key (rest.drop bodySize)
      | .eq => .ok (.found (extractKey bodySize keyLen (h :: rest))
          (recordValue bodySize keyLen vs (h :: rest)))
      | .gt => .ok .notFound
    else if h = 2 then findRecordGo bodySize keyLen vs key (rest.drop bodySize)
    else .error .fieldInvalidHeader
termination_by data => data.length
decreasing_by
  · simp only [List.length_cons, List.length_drop]; omega
  · simp only [List.length_cons, List.length_drop]; omega

/-- `find::find_record`: validate that the slice is a whole number of
fields, then scan. -/
def findRecord (bodySize keyLen : Nat) (vs : ValueSize) (key data : List Nat) :
    Except DbErr FindRes :=
  if data.length % (bodySize + 1) = 0 then findRecordGo bodySize keyLen vs key data
  else .error .fieldInvalidLength

/-! ## `Database::get` (claims C1, C8, C9)

From `src/paritydb/src/database.rs`.  `get` validates the key length, asks
the journal (`Journal::get`) and returns `Ok(Some(value))` on a journal
`Insert` hit — but a journal `Delete` yields the same `None` as a miss, so
the lookup FALLS THROUGH to storage.  On a journal miss it checks the
metadata prefix bit (`Ok(None)` when unset), then the collided bitmap
(reading the collision sidecar when set, `Ok(None)` when the sidecar file
is absent), and otherwise scans bucket `prefix * record_offset` of the data
file with `find_record`; the `OutOfRange` result hits `unimplemented!()`,
which we model as the dedicated outcome `panik`. -/

/-- Big-endian value of a byte string. -/
def bytesToNatBE : List Nat → Nat
  | [] => 0
  | b :: rest => b * 2 ^ (8 * rest.length) + bytesToNatBE rest

/-- Key prefix: the first `bits` bits of the key, big-endian
(`Modelled from the spec:` `key.rs` is not among the sources; §3 defines
the prefix as the high `key_index_bits` bits of the key). -/
def keyPfx (key : List Nat) (bits : Nat) : Nat :=
  bytesToNatBE key / 2 ^ (8 * key.length - bits)

/-- Outcome of `Database::get`: a value/miss, an error, or a process abort
(`unimplemented!()`). -/
inductive GetOut where
  | ok (v : Option (List Nat))
  | err (e : DbErr)
  | panik
deriving DecidableEq

/-- The embedded state of an open database, as `Database::get` consumes it:
configured options, journal era queue (oldest first), metadata bits, the
mapped data file, and the collision sidecars keyed by prefix. -/
structure DbState where
  keyLen : Nat
  pfxBits : Nat
  fieldBodySize : Nat
  valueSize : ValueSize
  eras : List EraCache
  pfxSet : List Nat
  collidedSet : List Nat
  data : List Nat
  collisionFiles : List (Nat × List (List Nat × List Nat))

/-- Lookup of a collision sidecar file (`Collision::open`: `none` when the
file does not exist). -/
def collisionOpen (files : List (Nat × List (List Nat × List Nat))) (p : Nat) :
    Option (List (List Nat × List Nat)) :=
  (files.find? (fun f => f.1 == p)).map (·.2)

/-- `Database::get`. -/
def dbGet (s : DbState) (key : List Nat) : GetOut :=
  if key.length ≠ s.keyLen then .err (.invalidKeyLen s.keyLen key.length)
  else
    match journalGet s.eras key with
    | some v => .ok (some v)
    | none =>
      let p := keyPfx key s.pfxBits
      if ¬ s.pfxSet.contains p then .ok none
      else if s.collidedSet.contains p then
        match collisionOpen s.collisionFiles p with
        | some entries => .ok (collisionGet entries key)
        | none => .ok none
      else
        match findRecord s.fieldBodySize s.keyLen s.valueSize key
          (s.data.drop (p * (s.fieldBodySize + 1))) with
        | .ok (.found _ v) => .ok (some v)
        | .ok .notFound => .ok none
        | .ok .outOfRange => .panik
        | .error e => .err e

theorem findRecordGo_error_header (bodySize keyLen : Nat) (vs : ValueSize) (key : List Nat) :
    ∀ (data : List Nat) (e : DbErr),
      findRecordGo bodySize keyLen vs key data = .error e → e = .fieldInvalidHeader := by
  intro data
  induction data using findRecordGo.induct bodySize keyLen vs key
  all_goals intro e h
  all_goals simp_all [findRecordGo]

theorem findRecord_error_not_keyLen (bodySize keyLen : Nat) (vs : ValueSize)
    (key data : List Nat) (a b : Nat) :
    findRecord bodySize keyLen vs key data ≠ .error (.invalidKeyLen a b) := by
  unfold findRecord
  split
  · intro h
    have := findRecordGo_error_header bodySize keyLen vs key data _ h
    simp at this
  · intro h
    simp at h

/-- C8: `Transaction::insert`, `Transaction::delete` and `Database::get`
fail with `InvalidKeyLen(expected, got)` — `expected` the configured
`key_len`, `got` the supplied key's length — exactly when the supplied
key's length differs from the configured `key_len`; with matching lengths
they never produce this error. -/
theorem C8_invalid_key_len (t : Tx) (s : DbState) (key value : List Nat)
    (hcfg : t.keyLen = s.keyLen) :
    (key.length ≠ s.keyLen →
      txInsert t key value = .error (.invalidKeyLen s.keyLen key.length) ∧
      txDelete t key = .error (.invalidKeyLen s.keyLen key.length) ∧
      dbGet s key = .err (.invalidKeyLen s.keyLen key.length)) ∧
    (key.length = s.keyLen →
      (∃ t', txInsert t key value = .ok t') ∧
      (∃ t', txDelete t key = .ok t') ∧
      (∀ a b, dbGet s key ≠ .err (.invalidKeyLen a b))) := by
  constructor
  · intro hne
    refine ⟨?_, ?_, ?_⟩
    · simp [txInsert, hcfg, hne]
    · simp [txDelete, hcfg, hne]
    · simp [dbGet, hne]
  · intro heq
    refine ⟨⟨{ t with operations := t.operations ++ writeOpToBuf (.insert key value) }, ?_⟩,
      ⟨{ t with operations := t.operations ++ writeOpToBuf (.delete key) }, ?_⟩, ?_⟩
    · unfold txInsert
      rw [if_neg (by omega)]
    · unfold txDelete
      rw [if_neg (by omega)]
    · intro a b hcontra
      unfold dbGet at hcontra
      rw [if_neg (by omega)] at hcontra
      rcases hj : journalGet s.eras key with _ | v
      · rw [hj] at hcontra
        simp only at hcontra
        by_cases hp : s.pfxSet.contains (keyPfx key s.pfxBits)
        · rw [if_neg (by simpa using hp)] at hcontra
          by_cases hc : s.collidedSet.contains (keyPfx key s.pfxBits)
          · rw [if_pos hc] at hcontra
            rcases hco : collisionOpen s.collisionFiles (keyPfx key s.pfxBits) with _ | entries
            all_goals rw [hco] at hcontra
            all_goals simp at hcontra
          · rw [if_neg hc] at hcontra
            rcases hf : findRecord s.fieldBodySize s.keyLen s.valueSize key
                (s.data.drop (keyPfx key s.pfxBits * (s.fieldBodySize + 1))) with e | r
            · rw [hf] at hcontra
              simp only [GetOut.err.injEq] at hcontra
              exact findRecord_error_not_keyLen s.fieldBodySize s.keyLen s.valueSize key
                _ a b (hcontra ▸ hf)
            · rw [hf] at hcontra
              cases r <;> simp_all
        · rw [if_pos (by simpa using hp)] at hcontra
          simp at hcontra
      · rw [hj] at hcontra
        simp at hcontra

/-- A small empty database state used to witness C8: configured key length
3, prefix bits 2, constant 3-byte values, nothing stored. -/
def c8Db : DbState where
  keyLen := 3
  pfxBits := 2
  fieldBodySize := 6
  valueSize := .constant 3
  eras := []
  pfxSet := []
  collidedSet := []
  data := []
  collisionFiles := []

/-- A fresh transaction for a 3-byte key length. -/
def c8Tx : Tx where
  keyLen := 3
  operations := []

/-- C8 witness: the theorem applied with configured key length 3, the short
key `[1, 2]` (length 2) and the exactly sized key `[1, 2, 3]`. -/
theorem C8_invalid_key_len_witness :
    txInsert c8Tx [1, 2] [9] = .error (.invalidKeyLen 3 2) ∧
    (∀ a b, dbGet c8Db [1, 2, 3] ≠ .err (.invalidKeyLen a b)) := by
  constructor
  · exact ((C8_invalid_key_len c8Tx c8Db [1, 2] [9] rfl).1 (by decide)).1
  · exact ((C8_invalid_key_len c8Tx c8Db [1, 2, 3] [9] rfl).2 (by decide)).2.2

/-- C9: when the bucket scan of `Database::get` for a non-collided prefix
reaches the end of the mapped data slice without meeting an `Uninitialized`
field or a record whose key is ≥ the searched key — that is, `find_record`
returns `OutOfRange` — `get` hits `unimplemented!()` and aborts instead of
returning `Ok` or an error. -/
theorem C9_get_out_of_range_panics (s : DbState) (key : List Nat)
    (hlen : key.length = s.keyLen)
    (hj : journalGet s.eras key = none)
    (hp : s.pfxSet.contains (keyPfx key s.pfxBits) = true)
    (hc : s.collidedSet.contains (keyPfx key s.pfxBits) = false)
    (hf : findRecord s.fieldBodySize s.keyLen s.valueSize key
        (s.data.drop (keyPfx key s.pfxBits * (s.fieldBodySize + 1))) = .ok .outOfRange) :
    dbGet s key = .panik := by
  unfold dbGet
  rw [if_neg (by omega), hj]
  simp only
  rw [if_neg (by simpa using hp), if_neg (by simpa using hc), hf]

/-- Witness state for C9: `key_len = 3`, constant value length 0
(`field_body_size = 3`, field size 4), prefix bits 8.  Bucket 4 (offset 16)
holds the records `[1,2,3]` and `[4,5,6]` and the slice ends right after
them. -/
def c9Db : DbState where
  keyLen := 3
  pfxBits := 8
  fieldBodySize := 3
  valueSize := .constant 0
  eras := []
  pfxSet := [4]
  collidedSet := []
  data := [0, 0, 0, 0, 0, 0, 0, 0, 0, 0, 0, 0, 0, 0, 0, 0, 1, 1, 2, 3, 1, 4, 5, 6]
  collisionFiles := []

/-- C9 witness: searching `c9Db` for `[4, 5, 7]` scans past both stored
records (both keys compare `Less`) and falls off the end of the slice, so
`get` aborts. -/
theorem C9_get_out_of_range_witness :
    dbGet c9Db [4, 5, 7] = .panik := by
  apply C9_get_out_of_range_panics
  · rfl
  · rfl
  · rfl
  · rfl
  · have hpfx : keyPfx [4, 5, 7] 8 = 4 := by
      simp [keyPfx, bytesToNatBE]
    show findRecord c9Db.fieldBodySize c9Db.keyLen c9Db.valueSize [4, 5, 7]
      (c9Db.data.drop (keyPfx [4, 5, 7] c9Db.pfxBits * (c9Db.fieldBodySize + 1))) =
        .ok .outOfRange
    rw [show c9Db.pfxBits = 8 from rfl, hpfx]
    simp [c9Db, findRecord, findRecordGo, extractKey, bodyBytes, cmpBytes]

/-! ## Claim C1: journal tombstones and `Database::get`

`Journal::get` returns `Option<&[u8]>`: an `Insert` hit returns
`Some(value)`, but a `Delete` hit returns `None` — the same `None` that a
complete journal miss returns.  `Database::get` only takes the early return
on `Some(res)`, so a journal `Delete` FALLS THROUGH to the metadata check
and the storage scan, and a stale stored record for the deleted key is
returned.  The state below is reachable: commit `{insert "aaa" "001"}`,
`flush_journal` (the record lands in bucket 1 of the data file and
`prefixes[1]` is set), then commit `{delete "aaa"}` (a new journal era). -/

/-- The C1 failing state: `key_len = 3`, `key_index_bits = 2`, constant
3-byte values (`field_body_size = 6`, `record_offset = 7`); bucket 1
(offset 7) stores the record `("aaa", "001")` = `([97,97,97], [48,48,49])`;
the newest journal era holds `Delete("aaa")`. -/
def c1Db : DbState where
  keyLen := 3
  pfxBits := 2
  fieldBodySize := 6
  valueSize := .constant 3
  eras := [[([97, 97, 97], JOp.delete)]]
  pfxSet := [1]
  collidedSet := []
  data := [0, 0, 0, 0, 0, 0, 0, 1, 97, 97, 97, 48, 48, 49]
  collisionFiles := []

/-- C1, evaluated at the failing input: the newest era holding the key
holds a `Delete`, yet `get` returns the stale stored value `"001"` instead
of the claimed `None` — the journal `Delete` is indistinguishable from a
miss, so storage IS consulted. -/
theorem C1_journal_delete_falls_through :
    eraGet [([97, 97, 97], JOp.delete)] [97, 97, 97] = some JOp.delete ∧
    journalGet c1Db.eras [97, 97, 97] = none ∧
    dbGet c1Db [97, 97, 97] = .ok (some [48, 48, 49]) ∧
    dbGet c1Db [97, 97, 97] ≠ .ok none := by
  have hpfx : keyPfx [97, 97, 97] 2 = 1 := by
    simp [keyPfx, bytesToNatBE]
  refine ⟨rfl, rfl, ?_, ?_⟩
  · show dbGet c1Db [97, 97, 97] = .ok (some [48, 48, 49])
    unfold dbGet
    rw [if_neg (by decide)]
    rw [show journalGet c1Db.eras [97, 97, 97] = none from rfl]
    simp only
    rw [show c1Db.pfxBits = 2 from rfl, hpfx]
    rw [if_neg (by decide), if_neg (by decide)]
    show (match findRecord c1Db.fieldBodySize c1Db.keyLen c1Db.valueSize [97, 97, 97]
        (c1Db.data.drop (1 * (c1Db.fieldBodySize + 1))) with
      | .ok (.found _ v) => GetOut.ok (some v)
      | .ok .notFound => GetOut.ok none
      | .ok .outOfRange => GetOut.panik
      | .error e => GetOut.err e) = .ok (some [48, 48, 49])
    have hfind : findRecord c1Db.fieldBodySize c1Db.keyLen c1Db.valueSize [97, 97, 97]
        (c1Db.data.drop (1 * (c1Db.fieldBodySize + 1))) =
          .ok (.found [97, 97, 97] [48, 48, 49]) := by
      simp [c1Db, findRecord, findRecordGo, extractKey, recordValue, bodyBytes, cmpBytes]
    rw [hfind]
  · intro h
    have h2 : dbGet c1Db [97, 97, 97] = .ok (some [48, 48, 49]) := by
      unfold dbGet
      rw [if_neg (by decide)]
      rw [show journalGet c1Db.eras [97, 97, 97] = none from rfl]
      simp only
      rw [show c1Db.pfxBits = 2 from rfl, hpfx]
      rw [if_neg (by decide), if_neg (by decide)]
      have hfind : findRecord c1Db.fieldBodySize c1Db.keyLen c1Db.valueSize [97, 97, 97]
          (c1Db.data.drop (1 * (c1Db.fieldBodySize + 1))) =
            .ok (.found [97, 97, 97] [48, 48, 49]) := by
        simp [c1Db, findRecord, findRecordGo, extractKey, recordValue, bodyBytes, cmpBytes]
      rw [hfind]
    rw [h] at h2
    exact absurd h2 (by simp)

/-! ## Claim C10: value lengths are never validated -/

theorem journalGet_append (eras : List EraCache) (c : EraCache) (key : List Nat) :
    journalGet (eras ++ [c]) key =
      match eraGet c key with
      | some (.insert v) => some v
      | some .delete => none
      | none => journalGet eras key := by
  unfold journalGet
  rw [List.reverse_append]
  rfl

/-- C10: for a database configured with `value_len = Constant(n)`,
`Transaction::insert` accepts a value of any length `m` (the key length is
the only validation), and after committing the transaction `Database::get`
answers from the journal with exactly that `m`-byte value — no operation
rejects or truncates it.  The bound `2^32` only reflects the `u32` length
fields of the wire format. -/
theorem C10_value_len_not_validated (s : DbState) (n : Nat) (key value : List Nat)
    (_hconst : s.valueSize = ValueSize.constant n)
    (hkey : key.length = s.keyLen)
    (hk32 : key.length < 4294967296) (hv32 : value.length < 4294967296) :
    ∃ t', txInsert { keyLen := s.keyLen, operations := [] } key value = .ok t' ∧
      dbGet { s with eras := journalPush s.eras t' } key = .ok (some value) := by
  refine ⟨{ keyLen := s.keyLen, operations := [] ++ writeOpToBuf (.insert key value) }, ?_, ?_⟩
  · unfold txInsert
    rw [if_neg (fun hne => hne hkey)]
  · have hser : ([] : List Nat) ++ writeOpToBuf (.insert key value) =
        serializeOps [.insert key value] := by
      simp [serializeOps]
    have hcache : cacheFromBytes ([] ++ writeOpToBuf (.insert key value)) =
        [(key, JOp.insert value)] := by
      rw [hser]
      unfold cacheFromBytes
      rw [parseOps_serializeOps [.insert key value] (by
        intro op hop
        rcases List.mem_singleton.mp hop with rfl
        exact ⟨by simpa [txOpKey] using hk32, by
          intro k v hkv
          cases hkv
          exact hv32⟩)]
      rfl
    have hj : journalGet (journalPush s.eras { keyLen := s.keyLen
                                               operations := [] ++ writeOpToBuf (.insert key value) })
        key = some value := by
      unfold journalPush
      rw [hcache, journalGet_append]
      simp [eraGet]
    unfold dbGet
    rw [if_neg (fun hne => hne hkey)]
    simp only
    rw [hj]

/-- Witness database for C10: configured constant value length 3, key
length 3, nothing stored. -/
def c10Db : DbState where
  keyLen := 3
  pfxBits := 2
  fieldBodySize := 6
  valueSize := .constant 3
  eras := []
  pfxSet := []
  collidedSet := []
  data := []
  collisionFiles := []

/-- C10 witness: the configured constant value length is 3 but the inserted
value `[7, 7]` has length 2; the insert is accepted and `get` returns the
2-byte value unchanged after commit. -/
theorem C10_value_len_not_validated_witness :
    ([7, 7] : List Nat).length ≠ 3 ∧
    ∃ t', txInsert { keyLen := c10Db.keyLen, operations := [] } [1, 2, 3] [7, 7] = .ok t' ∧
      dbGet { c10Db with eras := journalPush c10Db.eras t' } [1, 2, 3] = .ok (some [7, 7]) :=
  ⟨by decide,
    C10_value_len_not_validated c10Db 3 [1, 2, 3] [7, 7] rfl rfl (by decide) (by decide)⟩

/-! ## Merged iterator (claim C2)

From `src/paritydb/src/database.rs`, `DatabaseIterator::next`.  The
iterator holds a journal cursor (a `BTreeSet` of operations ordered by
key), a storage record cursor, and a one-slot `pending` buffer.  Taking
the pending value and refilling from the exhausted side reduces the loop to
a two-stream merge: with journal head `o` and storage head `r`,
`r.key_cmp(o.key())` decides — `Equal`: the journal wins, both cursors
advance, an `Insert` is emitted and a `Delete` skips the pair; `Greater`
(journal key strictly less): the journal entry alone is consumed, an
`Insert` is emitted and a `Delete` is skipped; `Less`: the record is
emitted and only the storage cursor advances.  Journal `Insert`s are
emitted as `(key, Value::Raw(value))`; records as their key and value
bytes.  `dbIter js rs` is the stream of pairs the iterator yields from
journal stream `js` and record stream `rs`. -/

/-- The pair stream yielded by `DatabaseIterator::next` until exhaustion. -/
def dbIter : List TxOp → List (List Nat × List Nat) → List (List Nat × List Nat)
  | [], [] => []
  | o :: js, [] =>
    match o with
    | .insert k v => (k, v) :: dbIter js []
    | .delete _ => dbIter js []
  | [], r :: rs => r :: dbIter [] rs
  | o :: js, r :: rs =>
    match cmpBytes r.1 (txOpKey o) with
    | .eq =>
      match o with
      | .insert k v => (k, v) :: dbIter js rs
      | .delete _ => dbIter js rs
    | .gt =>
      match o with
      | .insert k v => (k, v) :: dbIter js (r :: rs)
      | .delete _ => dbIter js (r :: rs)
    | .lt => r :: dbIter (o :: js) rs
termination_by js rs => js.length + rs.length
decreasing_by all_goals simp only [List.length_cons]; omega

theorem dbIter_nil_nil : dbIter [] [] = [] := by
  simp [dbIter]

theorem dbIter_ins_nil (k v : List Nat) (js : List TxOp) :
    dbIter (.insert k v :: js) [] = (k, v) :: dbIter js [] := by
  simp [dbIter]

theorem dbIter_del_nil (k : List Nat) (js : List TxOp) :
    dbIter (.delete k :: js) [] = dbIter js [] := by
  simp [dbIter]

theorem dbIter_nil_cons (r : List Nat × List Nat) (rs : List (List Nat × List Nat)) :
    dbIter [] (r :: rs) = r :: dbIter [] rs := by
  simp [dbIter]

theorem dbIter_eq_ins (k v : List Nat) (js : List TxOp) (r : List Nat × List Nat)
    (rs : List (List Nat × List Nat)) (h : cmpBytes r.1 k = .eq) :
    dbIter (.insert k v :: js) (r :: rs) = (k, v) :: dbIter js rs := by
  simp [dbIter, txOpKey, h]

theorem dbIter_eq_del (k : List Nat) (js : List TxOp) (r : List Nat × List Nat)
    (rs : List (List Nat × List Nat)) (h : cmpBytes r.1 k = .eq) :
    dbIter (.delete k :: js) (r :: rs) = dbIter js rs := by
  simp [dbIter, txOpKey, h]

theorem dbIter_gt_ins (k v : List Nat) (js : List TxOp) (r : List Nat × List Nat)
    (rs : List (List Nat × List Nat)) (h : cmpBytes r.1 k = .gt) :
    dbIter (.insert k v :: js) (r :: rs) = (k, v) :: dbIter js (r :: rs) := by
  simp [dbIter, txOpKey, h]

theorem dbIter_gt_del (k : List Nat) (js : List TxOp) (r : List Nat × List Nat)
    (rs : List (List Nat × List Nat)) (h : cmpBytes r.1 k = .gt) :
    dbIter (.delete k :: js) (r :: rs) = dbIter js (r :: rs) := by
  simp [dbIter, txOpKey, h]

theorem dbIter_lt (o : TxOp) (js : List TxOp) (r : List Nat × List Nat)
    (rs : List (List Nat × List Nat)) (h : cmpBytes r.1 (txOpKey o) = .lt) :
    dbIter (o :: js) (r :: rs) = r :: dbIter (o :: js) rs := by
  cases o with
  | insert k v =>
    simp only [txOpKey] at h
    simp [dbIter, txOpKey, h]
  | delete k =>
    simp only [txOpKey] at h
    simp [dbIter, txOpKey, h]

/-- Every key the merged iterator yields comes from one of its two input
streams. -/
theorem dbIter_key_mem (js : List TxOp) (rs : List (List Nat × List Nat)) :
    ∀ k ∈ (dbIter js rs).map Prod.fst, k ∈ js.map txOpKey ∨ k ∈ rs.map Prod.fst := by
  induction js, rs using dbIter.induct with
  | case1 =>
    intro k hk
    rw [dbIter_nil_nil] at hk
    simp at hk
  | case2 js k0 v0 ih =>
    intro k hk
    rw [dbIter_ins_nil] at hk
    rcases List.mem_cons.mp (by simpa using hk : k ∈ k0 :: (dbIter js []).map Prod.fst)
        with rfl | hk'
    · exact Or.inl (by simp [txOpKey])
    · rcases ih k hk' with h | h
      · exact Or.inl (by simp [txOpKey]; right; simpa using h)
      · exact Or.inr h
  | case3 js k0 ih =>
    intro k hk
    rw [dbIter_del_nil] at hk
    rcases ih k hk with h | h
    · exact Or.inl (by simp [txOpKey]; right; simpa using h)
    · exact Or.inr h
  | case4 r rs ih =>
    intro k hk
    rw [dbIter_nil_cons] at hk
    rcases List.mem_cons.mp (by simpa using hk : k ∈ r.1 :: (dbIter [] rs).map Prod.fst)
        with rfl | hk'
    · exact Or.inr (by simp)
    · rcases ih k hk' with h | h
      · exact Or.inl h
      · exact Or.inr (by simp; right; simpa using h)
  | case5 js r rs k0 v0 hcmp ih =>
    intro k hk
    rw [dbIter_eq_ins k0 v0 js r rs hcmp] at hk
    rcases List.mem_cons.mp (by simpa using hk : k ∈ k0 :: (dbIter js rs).map Prod.fst)
        with rfl | hk'
    · exact Or.inl (by simp [txOpKey])
    · rcases ih k hk' with h | h
      · exact Or.inl (by simp [txOpKey]; right; simpa using h)
      · exact Or.inr (by simp; right; simpa using h)
  | case6 js r rs k0 hcmp ih =>
    intro k hk
    rw [dbIter_eq_del k0 js r rs hcmp] at hk
    rcases ih k hk with h | h
    · exact Or.inl (by simp [txOpKey]; right; simpa using h)
    · exact Or.inr (by simp; right; simpa using h)
  | case7 js r rs k0 v0 hcmp ih =>
    intro k hk
    rw [dbIter_gt_ins k0 v0 js r rs hcmp] at hk
    rcases List.mem_cons.mp (by simpa using hk : k ∈ k0 :: (dbIter js (r :: rs)).map Prod.fst)
        with rfl | hk'
    · exact Or.inl (by simp [txOpKey])
    · rcases ih k hk' with h | h
      · exact Or.inl (by simp [txOpKey]; right; simpa using h)
      · exact Or.inr h
  | case8 js r rs k0 hcmp ih =>
    intro k hk
    rw [dbIter_gt_del k0 js r rs hcmp] at hk
    rcases ih k hk with h | h
    · exact Or.inl (by simp [txOpKey]; right; simpa using h)
    · exact Or.inr h
  | case9 o js r rs hcmp ih =>
    intro k hk
    rw [dbIter_lt o js r rs hcmp] at hk
    rcases List.mem_cons.mp (by simpa using hk : k ∈ r.1 :: (dbIter (o :: js) rs).map Prod.fst)
        with rfl | hk'
    · exact Or.inr (by simp)
    · rcases ih k hk' with h | h
      · exact Or.inl h
      · exact Or.inr (by simp; right; simpa using h)

/-- The merged stream is strictly ascending when both inputs are. -/
theorem dbIter_sorted :
    ∀ (js : List TxOp) (rs : List (List Nat × List Nat)),
      (js.map txOpKey).Pairwise keyLt → (rs.map Prod.fst).Pairwise keyLt →
      ((dbIter js rs).map Prod.fst).Pairwise keyLt := by
  intro js rs
  induction js, rs using dbIter.induct with
  | case1 =>
    intro _ _
    rw [dbIter_nil_nil]
    simp
  | case2 js k0 v0 ih =>
    intro hjs hrs
    rw [dbIter_ins_nil]
    simp only [List.map_cons, List.pairwise_cons] at hjs ⊢
    refine ⟨?_, ih hjs.2 hrs⟩
    intro b hb
    rcases dbIter_key_mem js [] b hb with h | h
    · exact hjs.1 b h
    · simp at h
  | case3 js k0 ih =>
    intro hjs hrs
    rw [dbIter_del_nil]
    simp only [List.map_cons, List.pairwise_cons] at hjs
    exact ih hjs.2 hrs
  | case4 r rs ih =>
    intro hjs hrs
    rw [dbIter_nil_cons]
    simp only [List.map_cons, List.pairwise_cons] at hrs ⊢
    refine ⟨?_, ih hjs hrs.2⟩
    intro b hb
    rcases dbIter_key_mem [] rs b hb with h | h
    · simp at h
    · exact hrs.1 b h
  | case5 js r rs k0 v0 hcmp ih =>
    intro hjs hrs
    rw [dbIter_eq_ins k0 v0 js r rs hcmp]
    have hr1 : r.1 = k0 := cmpBytes_eq_iff.mp hcmp
    simp only [List.map_cons, List.pairwise_cons] at hjs hrs ⊢
    refine ⟨?_, ih hjs.2 hrs.2⟩
    intro b hb
    rcases dbIter_key_mem js rs b hb with h | h
    · exact hjs.1 b h
    · exact hr1 ▸ hrs.1 b h
  | case6 js r rs k0 hcmp ih =>
    intro hjs hrs
    rw [dbIter_eq_del k0 js r rs hcmp]
    simp only [List.map_cons, List.pairwise_cons] at hjs hrs
    exact ih hjs.2 hrs.2
  | case7 js r rs k0 v0 hcmp ih =>
    intro hjs hrs
    rw [dbIter_gt_ins k0 v0 js r rs hcmp]
    have hk0r : keyLt k0 r.1 := keyLt_of_gt hcmp
    simp only [List.map_cons, List.pairwise_cons] at hjs ⊢
    refine ⟨?_, ih hjs.2 hrs⟩
    intro b hb
    rcases dbIter_key_mem js (r :: rs) b hb with h | h
    · exact hjs.1 b h
    · rcases List.mem_cons.mp (by simpa using h : b ∈ r.1 :: rs.map Prod.fst) with rfl | h'
      · exact hk0r
      · have hrb : keyLt r.1 b :=
          (List.pairwise_cons.mp (by simpa using hrs)).1 b h'
        exact keyLt_trans hk0r hrb
  | case8 js r rs k0 hcmp ih =>
    intro hjs hrs
    rw [dbIter_gt_del k0 js r rs hcmp]
    simp only [List.map_cons, List.pairwise_cons] at hjs
    exact ih hjs.2 hrs
  | case9 o js r rs hcmp ih =>
    intro hjs hrs
    rw [dbIter_lt o js r rs hcmp]
    have hro : keyLt r.1 (txOpKey o) := hcmp
    simp only [List.map_cons, List.pairwise_cons] at hrs ⊢
    refine ⟨?_, ih hjs hrs.2⟩
    intro b hb
    rcases dbIter_key_mem (o :: js) rs b hb with h | h
    · rcases List.mem_cons.mp (by simpa using h : b ∈ txOpKey o :: js.map txOpKey)
          with rfl | h'
      · exact hro
      · have hob : keyLt (txOpKey o) b :=
          (List.pairwise_cons.mp (by simpa using hjs)).1 b h'
        exact keyLt_trans hro hob
    · exact hrs.1 b h

/-- C2: with the journal stream strictly ascending by key (a `BTreeSet`)
and the storage records strictly ascending by key, the merged iterator
yields pairs with strictly ascending keys; whenever the storage record key
equals the journal key, the journal wins — an `Insert`'s value is emitted,
a `Delete` skips the pair, and both cursors advance — and when the journal
key is strictly less than the storage key (`key_cmp` returns `Greater`),
the journal entry is emitted (if an `Insert`) or skipped (if a `Delete`)
and only the journal cursor advances. -/
theorem C2_merged_iterator (js : List TxOp) (rs : List (List Nat × List Nat))
    (hjs : (js.map txOpKey).Pairwise keyLt)
    (hrs : (rs.map Prod.fst).Pairwise keyLt) :
    ((dbIter js rs).map Prod.fst).Pairwise keyLt ∧
    (∀ (k v : List Nat) (js' : List TxOp) (r : List Nat × List Nat)
        (rs' : List (List Nat × List Nat)), cmpBytes r.1 k = .eq →
        dbIter (.insert k v :: js') (r :: rs') = (k, v) :: dbIter js' rs') ∧
    (∀ (k : List Nat) (js' : List TxOp) (r : List Nat × List Nat)
        (rs' : List (List Nat × List Nat)), cmpBytes r.1 k = .eq →
        dbIter (.delete k :: js') (r :: rs') = dbIter js' rs') ∧
    (∀ (k v : List Nat) (js' : List TxOp) (r : List Nat × List Nat)
        (rs' : List (List Nat × List Nat)), cmpBytes r.1 k = .gt →
        dbIter (.insert k v :: js') (r :: rs') = (k, v) :: dbIter js' (r :: rs')) ∧
    (∀ (k : List Nat) (js' : List TxOp) (r : List Nat × List Nat)
        (rs' : List (List Nat × List Nat)), cmpBytes r.1 k = .gt →
        dbIter (.delete k :: js') (r :: rs') = dbIter js' (r :: rs')) :=
  ⟨dbIter_sorted js rs hjs hrs,
   fun k v js' r rs' h => dbIter_eq_ins k v js' r rs' h,
   fun k js' r rs' h => dbIter_eq_del k js' r rs' h,
   fun k v js' r rs' h => dbIter_gt_ins k v js' r rs' h,
   fun k js' r rs' h => dbIter_gt_del k js' r rs' h⟩

/-- C2 witness: journal `[Insert [1] [5], Delete [2]]` merged with storage
records `[([2], [7]), ([3], [8])]` — the deleted key `[2]` ties with the
stored record and is skipped — yields strictly ascending keys. -/
theorem C2_merged_iterator_witness :
    ((dbIter [TxOp.insert [1] [5], TxOp.delete [2]]
        [([2], [7]), ([3], [8])]).map Prod.fst).Pairwise keyLt :=
  (C2_merged_iterator [TxOp.insert [1] [5], TxOp.delete [2]] [([2], [7]), ([3], [8])]
    (by decide) (by decide)).1
